import Mathlib

/-!
# Builtin functions of the shell evaluator (`eval/builtin_func.go`)

A shallow embedding of the builtin adapter `wrapFn` / `convertArgs` and of the
builtins `failure`, `intoLines`, `fromLines`, `unpack`, `each`, `eq` and `plus`,
followed by theorems about them.

Conventions of the embedding.

* A Go `string` is a list of bytes (`GoString`).
* A channel is the list of values that cross it: for the input port, the values
  still queued before the channel is closed; for the output port, the values
  sent so far, oldest first.
* The file side of a port is a list of bytes: for the input port the bytes
  still to be read, for the output port the bytes written so far.
* A Go function with effects is a function from the execution context to a
  pair of its `Error` result and the execution context afterwards.
* Slicing and indexing are checked: an out-of-range slice bound or index makes
  the enclosing computation end in `Except.error`, as the Go runtime faults.
-/

namespace Elvish

/-! ## Data model -/

/-- One byte of a Go string. -/
abbrev Byte := Fin 256

/-- A Go `string`: a finite sequence of bytes. -/
abbrev GoString := List Byte

/-- The bytes of an ASCII text literal. -/
def ascii (s : String) : GoString :=
  s.toList.map (fun c => Fin.ofNat c.toNat)

/-- The newline byte, the Go character literal for a line feed. -/
def newline : Byte := 10

/-- Modelled from the spec: the `Sort` field of an `Error`; the type declaration
is outside `builtin_func.go`. The constants `Ok`, `Break` and `Continue` are the
ones `each` switches on. -/
inductive ErrorSort where
  | Ok
  | Failure
  | Return
  | Break
  | Continue
  deriving DecidableEq, Repr

/-- Modelled from the spec: the kinds of a flow signal. -/
inductive FlowKind where
  | Return
  | Break
  | Continue
  deriving DecidableEq, Repr

/-- Modelled from the spec: the Result Signal `Error`, a sum of `Ok`,
`Failure(message)` and `Flow(kind)` with kind one of Return, Break, Continue;
the type declaration is outside `builtin_func.go`. -/
inductive Error where
  | ok
  | failure (msg : GoString)
  | flow (kind : FlowKind)
  deriving DecidableEq, Repr

/-- The sort constant of a flow kind. -/
def FlowKind.sort : FlowKind → ErrorSort
  | .Return => .Return
  | .Break => .Break
  | .Continue => .Continue

/-- The `Sort` field of an `Error`. -/
def Error.Sort : Error → ErrorSort
  | .ok => .Ok
  | .failure _ => .Failure
  | .flow k => k.sort

/-- The success signal `OK`. -/
def OK : Error := .ok

/-- The constructor `NewFailure(msg)`. -/
def NewFailure (msg : GoString) : Error := .failure msg

/-- The constructor `newFlow(sort)`. -/
def newFlow (kind : FlowKind) : Error := .flow kind

/-- Modelled from the spec: the `Value` variant (String, Boolean, Rational, List,
Map, Closure); the type declarations are outside `builtin_func.go`. An `Error`
is a `Value` too, since `failure` sends one on a channel of values. A closure
value is a handle. -/
inductive Value where
  | String (s : GoString)
  | Bool (b : Bool)
  | Rat (num : Int) (den : Nat)
  | List (elems : List Value)
  | Map (entries : List (Value × Value))
  | Closure (handle : Nat)
  | Error (e : Error)

/-- The failure reported for a wrong argument count or a failed conversion. -/
def argsError : Error := NewFailure (ascii "args error")

/-- The failure `unpack` reports on an input that is not a list. -/
def inputError : Error := NewFailure (ascii "input error")

/-- A port: the channel side `ch` and the file side `f`. For an input port
`ferr` is the error, other than end of file, that the reader reports once the
bytes of `f` are used up (`none`: plain end of file). -/
structure Port where
  ch : List Value := []
  f : GoString := []
  ferr : Option GoString := none

/-- What `each` does with the child context of one iteration, in program
order. -/
inductive Event where
  | fork (name : GoString)
  | call (args : List Value)
  | closePorts

/-- The execution context: `ports0` is `ec.ports[0]` (input), `ports1` is
`ec.ports[1]` (output). `env` is the state a closure body can read and change,
`trace` records forks, closure calls and port closings of child contexts. -/
structure evalCtx (σ : Type) where
  ports0 : Port := {}
  ports1 : Port := {}
  env : σ
  trace : List Event := []

/-- The functions and types `builtin_func.go` uses and does not declare, for a
type `F` of 64-bit floats and a type `T` of the Go types that implement
`Value`. -/
structure Host (F : Type) (T : Type) where
  /-- The function `ToString(v)`. -/
  ToString : Value → GoString
  /-- The call `strconv.ParseFloat(s, 64)`, `none` when it returns an error. -/
  ParseFloat : GoString → Option F
  /-- The test `reflect.TypeOf(v).ConvertibleTo(t)`. -/
  ConvertibleTo : Value → T → Bool
  /-- The type `valueType`, the interface `Value` itself. -/
  valueType : T
  /-- The function `Eq(a, b)`. -/
  Eq : Value → Value → Bool
  /-- The float `0.0`. -/
  zero : F
  /-- Float addition. -/
  add : F → F → F
  /-- Float subtraction. -/
  sub : F → F → F
  /-- The call `fmt.Sprintf("%g", x)`. -/
  formatG : F → GoString

/-! ## The adapter `wrapFn` -/

/-- A declared parameter type that passes `supportedIn`: kind `String`, kind
`Float64`, or another type that implements `Value`. -/
inductive ParamType (T : Type) where
  | String
  | Float64
  | Value (t : T)

/-- The signature of an inner function after its leading `*evalCtx`: the types
of the non-variadic parameters, and the element type of the variadic one when
there is one. -/
structure Signature (T : Type) where
  required : List (ParamType T)
  variadic : Option (ParamType T)

/-- The count `requiredArgs` computed by `wrapFn`. -/
def Signature.requiredArgs {T : Type} (sig : Signature T) : Nat :=
  sig.required.length

/-- The flag `isVariadic` computed by `wrapFn`. -/
def Signature.isVariadic {T : Type} (sig : Signature T) : Bool :=
  sig.variadic.isSome

/-- One slot of `callArgs`: the context, or a converted argument. -/
inductive CallArg (F : Type) where
  | ctx
  | str (s : GoString)
  | float (x : F)
  | val (v : Value)

/-- A run-time fault of the Go program. -/
inductive Fault where
  | sliceBounds
  | indexRange
  | badCall
  deriving DecidableEq, Repr

/-- An inner function: it receives the context and the converted arguments. -/
abbrev Inner (F σ : Type) := evalCtx σ → List (CallArg F) → Error × evalCtx σ

/-- The function `toFloat`: the argument must be a `String` that parses. -/
def toFloat {F T : Type} (host : Host F T) (arg : Value) : Option F :=
  match arg with
  | .String s => host.ParseFloat s
  | _ => none

/-- The body of the `switch` in `convertArgs`: the converted argument, or `none`
where `convertArgs` returns false. -/
def convertArg {F T : Type} (host : Host F T) (ty : ParamType T) (arg : Value) :
    Option (CallArg F) :=
  match ty with
  | .String => some (.str (host.ToString arg))
  | .Float64 =>
    match toFloat host arg with
    | some x => some (.float x)
    | none => none
  | .Value t => if host.ConvertibleTo arg t then some (.val arg) else none

/-- The slice expression `s[lo:]`, checked against the length of `s`. -/
def sliceFrom {α : Type} (s : List α) (lo : Nat) : Except Fault (List α) :=
  if lo ≤ s.length then .ok (s.drop lo) else .error .sliceBounds

/-- The slice expression `s[:hi]`, checked against the length of `s` (the Go
runtime checks against the capacity, which is at least the length). -/
def sliceTo {α : Type} (s : List α) (hi : Nat) : Except Fault (List α) :=
  if hi ≤ s.length then .ok (s.take hi) else .error .sliceBounds

/-- A slice `callArgs[off:]` of the array of call slots: it shares the array, so
it is the whole array with the offset of its first element (offset 0: the
array itself). An empty slot is `none`, the zero `reflect.Value`. -/
structure SlotSlice (F : Type) where
  array : List (Option (CallArg F))
  off : Nat

/-- The length of a slot slice. -/
def SlotSlice.len {F : Type} (s : SlotSlice F) : Nat := s.array.length - s.off

/-- The assignment `s[i] = x`, checked against the length of the slice. -/
def SlotSlice.store {F : Type} (s : SlotSlice F) (i : Nat) (x : CallArg F) :
    Except Fault (SlotSlice F) :=
  if i < s.len then .ok { s with array := s.array.set (s.off + i) (some x) }
  else .error .indexRange

/-- The slice expression `callArgs[lo:]` on the array of call slots, checked. -/
def slotsFrom {F : Type} (array : List (Option (CallArg F))) (lo : Nat) :
    Except Fault (SlotSlice F) :=
  if lo ≤ array.length then .ok { array := array, off := lo } else .error .sliceBounds

/-- The loop of `convertArgs` from index `i` on: `args` are the arguments not yet
visited. It returns the boolean of `convertArgs` and the slots as written. -/
def convertArgsFrom {F T : Type} (host : Host F T) (callType : Nat → Except Fault (ParamType T)) :
    List Value → Nat → SlotSlice F → Except Fault (Bool × SlotSlice F)
  | [], _, callArgs => .ok (true, callArgs)
  | arg :: rest, i, callArgs =>
    match callType i with
    | .error e => .error e
    | .ok ty =>
      match convertArg host ty arg with
      | none => .ok (false, callArgs)
      | some callArg =>
        match callArgs.store i callArg with
        | .error e => .error e
        | .ok callArgs1 => convertArgsFrom host callType rest (i + 1) callArgs1

/-- The function `convertArgs`. -/
def convertArgs {F T : Type} (host : Host F T) (args : List Value) (callArgs : SlotSlice F)
    (callType : Nat → Except Fault (ParamType T)) : Except Fault (Bool × SlotSlice F) :=
  convertArgsFrom host callType args 0 callArgs

/-- The call `type_.In(i + 1)` for a required parameter; reflection faults past
the declared parameters. -/
def Signature.In {T : Type} (sig : Signature T) (i : Nat) : Except Fault (ParamType T) :=
  match sig.required[i]? with
  | some ty => .ok ty
  | none => .error .indexRange

/-- The contents of the call slots when every one of them holds a value. -/
def filled {F : Type} : List (Option (CallArg F)) → Option (List (CallArg F))
  | [] => some []
  | none :: _ => none
  | some c :: rest =>
    match filled rest with
    | none => none
    | some cs => some (c :: cs)

/-- The call `reflect.ValueOf(inner).Call(callArgs)`: every slot must hold a
value and the first one the context. -/
def reflectCall {F σ : Type} (inner : Inner F σ) (ec : evalCtx σ)
    (callArgs : List (Option (CallArg F))) : Except Fault (Error × evalCtx σ) :=
  match filled callArgs with
  | some (.ctx :: rest) => .ok (inner ec rest)
  | _ => .error .badCall

/-- The function returned by `wrapFn(inner)`, for an inner function of signature
`sig`. -/
def wrapFn {F T σ : Type} (host : Host F T) (sig : Signature T) (inner : Inner F σ)
    (ec : evalCtx σ) (args : List Value) : Except Fault (Error × evalCtx σ) :=
  if args.length < sig.requiredArgs || (!sig.isVariadic && args.length > sig.requiredArgs) then
    .ok (argsError, ec)
  else
    let callArgs : List (Option (CallArg F)) := List.replicate (args.length + 1) none
    match SlotSlice.store { array := callArgs, off := 0 } 0 .ctx with
    | .error e => .error e
    | .ok s0 =>
      let callArgs := s0.array
      match sliceTo args sig.requiredArgs, slotsFrom callArgs 1 with
      | .error e, _ => .error e
      | _, .error e => .error e
      | .ok args1, .ok dst1 =>
        match convertArgs host args1 dst1 (fun i => sig.In i) with
        | .error e => .error e
        | .ok (false, _) => .ok (argsError, ec)
        | .ok (true, dst1) =>
          let callArgs := dst1.array
          match sig.variadic with
          | none => reflectCall inner ec callArgs
          | some variadicType =>
            match sliceFrom args sig.requiredArgs, slotsFrom callArgs (1 + sig.requiredArgs) with
            | .error e, _ => .error e
            | _, .error e => .error e
            | .ok args2, .ok dst2 =>
              match convertArgs host args2 dst2 (fun _ => .ok variadicType) with
              | .error e => .error e
              | .ok (false, _) => .ok (argsError, ec)
              | .ok (true, dst2) => reflectCall inner ec dst2.array

/-! ## Builtins -/

/-- The send `out <- v` on the channel of the output port. -/
def evalCtx.send {σ : Type} (ec : evalCtx σ) (v : Value) : evalCtx σ :=
  { ec with ports1 := { ec.ports1 with ch := ec.ports1.ch ++ [v] } }

/-- The builtin `failure`. -/
def failure {F T σ : Type} (host : Host F T) (ec : evalCtx σ) (arg : Value) :
    Error × evalCtx σ :=
  (OK, ec.send (.Error (NewFailure (host.ToString arg))))

/-- The signature of `failure`: one parameter of type `Value`. -/
def failureSig {F T : Type} (host : Host F T) : Signature T :=
  { required := [.Value host.valueType], variadic := none }

/-- The function `failure` as `reflect.Call` applies it to the call slots. -/
def failureInner {F T σ : Type} (host : Host F T) : Inner F σ := fun ec callArgs =>
  match callArgs with
  | [.val arg] => failure host ec arg
  | _ => (OK, ec)

/-- The builtin `plus`. -/
def plus {F T σ : Type} (host : Host F T) (ec : evalCtx σ) (nums : List F) :
    Error × evalCtx σ :=
  (OK, ec.send (.String (host.formatG (nums.foldl host.add host.zero))))

/-- The signature of `plus`: a variadic parameter of floats. -/
def plusSig {T : Type} : Signature T :=
  { required := [], variadic := some .Float64 }

/-- The float of a call slot, when it holds one. -/
def CallArg.float? {F : Type} : CallArg F → Option F
  | .float x => some x
  | _ => none

/-- The function `plus` as `reflect.Call` applies it to the call slots. -/
def plusInner {F T σ : Type} (host : Host F T) : Inner F σ := fun ec callArgs =>
  plus host ec (callArgs.filterMap CallArg.float?)

/-- The builtin `minus`. -/
def minus {F T σ : Type} (host : Host F T) (ec : evalCtx σ) (sum : F) (nums : List F) :
    Error × evalCtx σ :=
  (OK, ec.send (.String (host.formatG (nums.foldl host.sub sum))))

/-- The signature of `minus`: a float, then a variadic parameter of floats. -/
def minusSig {T : Type} : Signature T :=
  { required := [.Float64], variadic := some .Float64 }

/-- The function `minus` as `reflect.Call` applies it to the call slots. -/
def minusInner {F T σ : Type} (host : Host F T) : Inner F σ := fun ec callArgs =>
  match callArgs with
  | .float sum :: rest => minus host ec sum (rest.filterMap CallArg.float?)
  | _ => (OK, ec)

/-- The loop of `intoLines`: each `fmt.Fprintln(out, ToString(v))` appends the
text of `v` and a newline to the bytes written. -/
def intoLinesLoop {F T : Type} (host : Host F T) : List Value → GoString → GoString
  | [], out => out
  | v :: rest, out => intoLinesLoop host rest (out ++ host.ToString v ++ [newline])

/-- The builtin `intoLines`: it drains the input channel. -/
def intoLines {F T σ : Type} (host : Host F T) (ec : evalCtx σ) : Error × evalCtx σ :=
  (OK, { ec with
    ports0 := { ec.ports0 with ch := [] }
    ports1 := { ec.ports1 with f := intoLinesLoop host ec.ports0.ch ec.ports1.f } })

/-- The error of a read. -/
inductive ReadErr where
  | EOF
  | other (msg : GoString)
  deriving DecidableEq, Repr

/-- The call `bufferedIn.ReadString(delim)` on the bytes left to read: the bytes
up to and including the first `delim`, the bytes after it, and no error; or, with
no `delim` left, all the bytes and the error that ends the input. -/
def ReadString (delim : Byte) (ferr : Option GoString) :
    GoString → GoString × GoString × Option ReadErr
  | [] => ([], [], some (match ferr with
      | none => .EOF
      | some msg => .other msg))
  | b :: bs =>
    if b = delim then ([b], bs, none)
    else
      let r := ReadString delim ferr bs
      (b :: r.1, r.2.1, r.2.2)

/-- The loop of `fromLines` on the bytes left to read `input` and the values sent
so far `out`; `none` when the fuel runs out. The slice `line[:len(line)-1]` drops
the delimiter that ends a line read without error. -/
def fromLinesLoop (ferr : Option GoString) :
    Nat → GoString → List Value → Option (Error × GoString × List Value)
  | 0, _, _ => none
  | fuel + 1, input, out =>
    match ReadString newline ferr input with
    | (_, rest, some .EOF) => some (OK, rest, out)
    | (_, rest, some (.other msg)) => some (NewFailure msg, rest, out)
    | (line, rest, none) => fromLinesLoop ferr fuel rest (out ++ [.String line.dropLast])

/-- The builtin `fromLines`; the fuel is one more than the number of bytes to
read. -/
def fromLines {σ : Type} (ec : evalCtx σ) : Option (Error × evalCtx σ) :=
  match fromLinesLoop ec.ports0.ferr (ec.ports0.f.length + 1) ec.ports0.f ec.ports1.ch with
  | none => none
  | some (ex, rest, out) =>
    some (ex, { ec with
      ports0 := { ec.ports0 with f := rest }
      ports1 := { ec.ports1 with ch := out } })

/-- The loop of `unpack` on the values queued on the input channel and the values
sent so far: the result, the values left on the input channel, the values
sent. -/
def unpackLoop : List Value → List Value → Error × List Value × List Value
  | [], out => (OK, [], out)
  | v :: rest, out =>
    match v with
    | .List list => unpackLoop rest (out ++ list)
    | _ => (inputError, rest, out)

/-- The builtin `unpack`. -/
def unpack {σ : Type} (ec : evalCtx σ) : Error × evalCtx σ :=
  let r := unpackLoop ec.ports0.ch ec.ports1.ch
  (r.1, { ec with
    ports0 := { ec.ports0 with ch := r.2.1 }
    ports1 := { ec.ports1 with ch := r.2.2 } })

/-- A closure: `Call` runs the body on the state it can reach with the given
arguments. -/
structure Closure (σ : Type) where
  Call : σ → List Value → Error × σ

/-- The loop of `each` on the values queued on the input channel: the result, the
values left on the input channel, the state and the trace afterwards. -/
def eachLoop {σ : Type} (f : Closure σ) :
    List Value → σ → List Event → Error × List Value × σ × List Event
  | [], env, trace => (OK, [], env, trace)
  | v :: rest, env, trace =>
    let r := f.Call env [v]
    let ex := r.1
    let trace1 := trace ++ [.fork (ascii "closure of each"), .call [v], .closePorts]
    match ex.Sort with
    | .Ok => eachLoop f rest r.2 trace1
    | .Continue => eachLoop f rest r.2 trace1
    | .Break => (OK, rest, r.2, trace1)
    | _ => (ex, rest, r.2, trace1)

/-- The builtin `each`. -/
def each {σ : Type} (ec : evalCtx σ) (f : Closure σ) : Error × evalCtx σ :=
  let r := eachLoop f ec.ports0.ch ec.env ec.trace
  (r.1, { ec with
    ports0 := { ec.ports0 with ch := r.2.1 }
    env := r.2.2.1
    trace := r.2.2.2 })

/-- The loop of `eq`: false when some adjacent pair is not `Eq`. -/
def eqLoop {F T : Type} (host : Host F T) : List Value → Bool
  | a :: b :: rest => if !host.Eq a b then false else eqLoop host (b :: rest)
  | _ => true

/-- The builtin `eq`. -/
def eq {F T σ : Type} (host : Host F T) (ec : evalCtx σ) (args : List Value) :
    Error × evalCtx σ :=
  if args.length = 0 then (argsError, ec)
  else if !eqLoop host args then (OK, ec.send (.Bool false))
  else (OK, ec.send (.Bool true))

/-! ## Reference functions for the statements -/

/-- The declared type the argument at index `i` is bound to: a required
parameter, or the variadic element type past the required ones. -/
def Signature.paramAt {T : Type} (sig : Signature T) (i : Nat) : Option (ParamType T) :=
  if i < sig.requiredArgs then sig.required[i]? else sig.variadic

/-- The declared types `n` arguments are bound to, in order. -/
def Signature.argTypes {T : Type} (sig : Signature T) (n : Nat) : List (ParamType T) :=
  sig.required ++
    (match sig.variadic with
     | some ty => List.replicate (n - sig.requiredArgs) ty
     | none => [])

/-- The arguments converted one by one against a list of types, `none` as soon
as one conversion fails. -/
def convertList {F T : Type} (host : Host F T) :
    List (ParamType T) → List Value → Option (List (CallArg F))
  | ty :: tys, arg :: args =>
    match convertArg host ty arg with
    | none => none
    | some c =>
      match convertList host tys args with
      | none => none
      | some cs => some (c :: cs)
  | _, _ => some []

/-- The closure called on each value of a list in turn, from the state `env`: the
signals it returns, in order, and the state after the last call. -/
def runClosure {σ : Type} (f : Closure σ) : List Value → σ → List Error × σ
  | [], env => ([], env)
  | v :: vs, env =>
    let r := f.Call env [v]
    let rs := runClosure f vs r.2
    (r.1 :: rs.1, rs.2)

/-- The events of one iteration of `each` on the value `v`. -/
def iteration (v : Value) : List Event :=
  [.fork (ascii "closure of each"), .call [v], .closePorts]

/-- The argument lists of the closure calls of a trace, in order. -/
def calls : List Event → List (List Value)
  | [] => []
  | .call args :: rest => args :: calls rest
  | _ :: rest => calls rest

/-- The number of forks of a trace. -/
def forks : List Event → Nat
  | [] => 0
  | .fork _ :: rest => forks rest + 1
  | _ :: rest => forks rest

/-- The number of port closings of a trace. -/
def closings : List Event → Nat
  | [] => 0
  | .closePorts :: rest => closings rest + 1
  | _ :: rest => closings rest

/-- The elements of a list value; nothing for another value. -/
def elemsOf (v : Value) : List Value :=
  match v with
  | .List elems => elems
  | _ => []

/-- The value is a list. -/
def isList (v : Value) : Bool :=
  match v with
  | .List _ => true
  | _ => false

/-- The text of newline-terminated lines. -/
def lines (ss : List GoString) : GoString :=
  ss.flatMap (fun s => s ++ [newline])

/-- The argument count passes the first test of the wrapped function. -/
def Signature.countOk {T : Type} (sig : Signature T) (n : Nat) : Prop :=
  if sig.isVariadic then sig.requiredArgs ≤ n else n = sig.requiredArgs

instance {T : Type} (sig : Signature T) (n : Nat) : Decidable (sig.countOk n) := by
  unfold Signature.countOk; infer_instance

/-! ## A concrete host for the worked examples -/

/-- A host for the examples: floats are integers and only the text `1` parses;
the Go types implementing `Value` are numbered, 0 being the interface `Value`,
1 the type of lists and 2 the type of closures. -/
def demoHost : Host Int Nat where
  ToString := fun v =>
    match v with
    | .String s => s
    | _ => ascii "?"
  ParseFloat := fun s => if s = ascii "1" then some 1 else none
  ConvertibleTo := fun v t =>
    match t, v with
    | 0, _ => true
    | 1, .List _ => true
    | 2, .Closure _ => true
    | _, _ => false
  valueType := 0
  Eq := fun a b =>
    match a, b with
    | .String x, .String y => decide (x = y)
    | .Bool x, .Bool y => decide (x = y)
    | _, _ => false
  zero := 0
  add := fun x y => x + y
  sub := fun x y => x - y
  formatG := fun x => if x = 1 then ascii "1" else if x = 2 then ascii "2" else ascii "0"

/-- The `String` value of an ASCII text. -/
def text (s : String) : Value := .String (ascii s)

/-- An execution context with empty ports and no closure state. -/
def demoCtx : evalCtx Unit := { env := () }

/-- A closure that breaks on the text `b`, returns on the text `r`, fails on the
text `f` and continues on the text `c`; on anything else it is `OK`. -/
def demoClosure : Closure Unit where
  Call := fun env args =>
    match args with
    | [.String s] =>
      if s = ascii "b" then (newFlow .Break, env)
      else if s = ascii "r" then (newFlow .Return, env)
      else if s = ascii "f" then (NewFailure (ascii "boom"), env)
      else if s = ascii "c" then (newFlow .Continue, env)
      else (OK, env)
    | _ => (OK, env)

/-- A closure whose state is the list of the argument lists it has been called
with, oldest first; it continues on the text `c` and is `OK` on anything else. -/
def recorder : Closure (List (List Value)) where
  Call := fun env args =>
    match args with
    | [.String s] =>
      if s = ascii "c" then (newFlow .Continue, env ++ [args]) else (OK, env ++ [args])
    | _ => (OK, env ++ [args])

/-- An execution context with empty ports for the closure `recorder`, which has
not been called yet. -/
def recorderCtx : evalCtx (List (List Value)) := { env := [] }

/-! ## Generic lemmas -/

theorem convertList_length {F T : Type} (host : Host F T) :
    ∀ (tys : List (ParamType T)) (args : List Value) (cs : List (CallArg F)),
      tys.length = args.length → convertList host tys args = some cs →
      cs.length = args.length := by
  intro tys
  induction tys with
  | nil =>
    intro args cs hl h
    cases args with
    | nil => simp [convertList] at h; simp [← h]
    | cons a as => simp at hl
  | cons ty tys ih =>
    intro args cs hl h
    cases args with
    | nil => simp at hl
    | cons a as =>
      simp only [convertList] at h
      cases hc : convertArg host ty a with
      | none => simp [hc] at h
      | some c =>
        cases hr : convertList host tys as with
        | none => simp [hc, hr] at h
        | some cs1 =>
          simp [hc, hr] at h
          subst h
          simp [ih as cs1 (by simpa using hl) hr]

theorem convertArgsFrom_spec {F T : Type} (host : Host F T)
    (callType : Nat → Except Fault (ParamType T)) (off : Nat) :
    ∀ (args : List Value) (tys : List (ParamType T)) (i : Nat)
      (done todo : List (Option (CallArg F))),
      tys.length = args.length →
      (∀ j (h : j < tys.length), callType (i + j) = .ok (tys.get ⟨j, h⟩)) →
      done.length = off + i → args.length ≤ todo.length →
      (convertList host tys args = none →
        ∃ s, convertArgsFrom host callType args i ⟨done ++ todo, off⟩ = .ok (false, s)) ∧
      (∀ cs, convertList host tys args = some cs →
        convertArgsFrom host callType args i ⟨done ++ todo, off⟩ =
          .ok (true, ⟨done ++ cs.map some ++ todo.drop args.length, off⟩)) := by
  intro args
  induction args with
  | nil =>
    intro tys i done todo hl _ _ _
    have : tys = [] := by simpa using hl
    subst this
    simp [convertList, convertArgsFrom]
  | cons a as ih =>
    intro tys i done todo hl hty hdone htodo
    cases tys with
    | nil => simp at hl
    | cons ty tys =>
      have h0 : callType i = .ok ty := by simpa using hty 0 (by simp)
      cases todo with
      | nil => simp at htodo
      | cons t todo =>
        cases hc : convertArg host ty a with
        | none =>
          simp [convertList, convertArgsFrom, h0, hc]
        | some c =>
          have hstore : SlotSlice.store ⟨done ++ t :: todo, off⟩ i c =
              .ok ⟨(done ++ [some c]) ++ todo, off⟩ := by
            unfold SlotSlice.store SlotSlice.len
            have hlt : i < (done ++ t :: todo).length - off := by
              simp [hdone]; omega
            simp only [hlt, if_true]
            congr 2
            rw [← hdone]
            simp [List.set_append]
          have ih1 := ih tys (i + 1) (done ++ [some c]) todo (by simpa using hl)
            (fun j h => by
              have := hty (j + 1) (by simp; omega)
              simpa [Nat.add_assoc, Nat.add_comm 1 j] using this)
            (by simp [hdone]; omega) (by simpa using htodo)
          simp only [List.append_assoc, List.singleton_append, List.cons_append,
            List.nil_append] at ih1 hstore
          constructor
          · intro hn
            simp only [convertList, hc] at hn
            cases hr : convertList host tys as with
            | some cs1 => simp [hr] at hn
            | none =>
              obtain ⟨s, hs⟩ := ih1.1 hr
              exact ⟨s, by simp [convertArgsFrom, h0, hc, hstore, hs]⟩
          · intro cs hs
            simp only [convertList, hc] at hs
            cases hr : convertList host tys as with
            | none => simp [hr] at hs
            | some cs1 =>
              simp [hr] at hs
              subst hs
              have := ih1.2 cs1 hr
              simp [convertArgsFrom, h0, hc, hstore, this]

theorem convertList_append {F T : Type} (host : Host F T) :
    ∀ (tys1 : List (ParamType T)) (as1 : List Value) (tys2 : List (ParamType T))
      (as2 : List Value), tys1.length = as1.length →
      convertList host (tys1 ++ tys2) (as1 ++ as2) =
        (match convertList host tys1 as1 with
         | none => none
         | some cs1 =>
           match convertList host tys2 as2 with
           | none => none
           | some cs2 => some (cs1 ++ cs2)) := by
  intro tys1
  induction tys1 with
  | nil =>
    intro as1 tys2 as2 hl
    have : as1 = [] := by simpa using hl.symm
    subst this
    cases h : convertList host tys2 as2 <;> simp [convertList, h]
  | cons ty tys ih =>
    intro as1 tys2 as2 hl
    cases as1 with
    | nil => simp at hl
    | cons a as =>
      have ih1 := ih as tys2 as2 (by simpa using hl)
      simp only [List.cons_append, convertList]
      cases hc : convertArg host ty a with
      | none => simp
      | some c =>
        simp only [List.append_eq]
        rw [ih1]
        cases h1 : convertList host tys as with
        | none => simp
        | some cs1 =>
          cases h2 : convertList host tys2 as2 <;> simp

theorem filled_map_some {F : Type} (l : List (CallArg F)) :
    filled (l.map some) = some l := by
  induction l with
  | nil => rfl
  | cons a l ih => simp [filled, ih]

theorem wrapFn_eq {F T σ : Type} (host : Host F T) (sig : Signature T) (inner : Inner F σ)
    (ec : evalCtx σ) (args : List Value) :
    wrapFn host sig inner ec args =
      if sig.countOk args.length then
        match convertList host (sig.argTypes args.length) args with
        | none => .ok (argsError, ec)
        | some cs => .ok (inner ec cs)
      else .ok (argsError, ec) := by
  obtain ⟨required, variadic⟩ := sig
  by_cases hlt : args.length < required.length
  · have hc : ¬ Signature.countOk ⟨required, variadic⟩ args.length := by
      unfold Signature.countOk Signature.requiredArgs
      split <;> simp <;> omega
    simp [wrapFn, Signature.requiredArgs, hlt, hc]
  · have hle : required.length ≤ args.length := Nat.le_of_not_lt hlt
    have hstore0 : SlotSlice.store (F := F) ⟨List.replicate (args.length + 1) none, 0⟩ 0 .ctx =
        .ok ⟨some .ctx :: List.replicate args.length none, 0⟩ := by
      simp [SlotSlice.store, SlotSlice.len, List.replicate_succ]
    have hspec1 := convertArgsFrom_spec host (fun i => Signature.In ⟨required, variadic⟩ i) 1
      (args.take required.length) required 0 [some .ctx] (List.replicate args.length none)
      (by simp [hle])
      (fun j h => by simp [Signature.In, List.getElem?_eq_getElem h])
      (by simp) (by simp)
    cases variadic with
    | none =>
      by_cases heq : args.length = required.length
      · have hc : Signature.countOk ⟨required, none⟩ args.length := by
          simp [Signature.countOk, Signature.isVariadic, Signature.requiredArgs, heq]
        have htake : args.take required.length = args := by
          rw [← heq]; exact List.take_length args
        rw [htake] at hspec1
        simp only [wrapFn, Signature.requiredArgs, Signature.isVariadic, hstore0, sliceTo,
          slotsFrom, convertArgs, hc, Signature.argTypes, htake]
        simp only [heq, Nat.lt_irrefl, Option.isSome_none, Bool.not_false, gt_iff_lt,
          decide_False, Bool.and_false, Bool.or_self, Bool.false_eq_true, if_false, if_true,
          le_refl, List.length_cons, List.length_replicate, Nat.le_add_left, List.append_nil]
        cases hcl : convertList host required args with
        | none =>
          obtain ⟨s, hs⟩ := hspec1.1 hcl
          simp only [List.singleton_append] at hs
          rw [← heq, hs]
        | some cs =>
          have hs := hspec1.2 cs hcl
          simp only [List.singleton_append] at hs
          rw [← heq, hs]
          simp [reflectCall, filled, filled_map_some]
      · have hc : ¬ Signature.countOk ⟨required, none⟩ args.length := by
          simp [Signature.countOk, Signature.isVariadic, Signature.requiredArgs, heq]
        have hgt : args.length > required.length := by omega
        simp [wrapFn, Signature.requiredArgs, Signature.isVariadic, hc, hgt]
    | some vty =>
      have hc : Signature.countOk ⟨required, some vty⟩ args.length := by
        simp [Signature.countOk, Signature.isVariadic, Signature.requiredArgs, hle]
      have hsplit : convertList host (required ++ List.replicate (args.length - required.length) vty)
          (args.take required.length ++ args.drop required.length) = _ :=
        convertList_append host required (args.take required.length)
          (List.replicate (args.length - required.length) vty) (args.drop required.length)
          (by simp [hle])
      rw [List.take_append_drop] at hsplit
      have htl : (args.take required.length).length = required.length := by simp [hle]
      simp only [wrapFn, Signature.requiredArgs, Signature.isVariadic, hstore0, sliceTo, sliceFrom,
        slotsFrom, convertArgs, hc, Signature.argTypes, hsplit, hlt, hle, if_true]
      simp only [Option.isSome_some, Bool.not_true, Bool.false_and, Bool.or_false,
        decide_False, Bool.false_eq_true, if_false, List.length_cons, List.length_replicate,
        Nat.le_add_left, if_true]
      cases hcl : convertList host required (args.take required.length) with
      | none =>
        obtain ⟨s, hs⟩ := hspec1.1 hcl
        simp only [List.singleton_append] at hs
        rw [hs]
      | some cs1 =>
        have hs := hspec1.2 cs1 hcl
        have hl1 : cs1.length = required.length := by
          rw [convertList_length host required _ cs1 (by simp [hle]) hcl, htl]
        simp only [List.singleton_append, htl, List.drop_replicate, List.cons_append,
          List.nil_append] at hs
        rw [hs]
        have hspec2 := convertArgsFrom_spec host (fun _ => Except.ok vty) (1 + required.length)
          (args.drop required.length) (List.replicate (args.length - required.length) vty) 0
          (some .ctx :: cs1.map some) (List.replicate (args.length - required.length) none)
          (by simp) (fun j h => by simp) (by simp [hl1]; omega) (by simp)
        have hfit : 1 + required.length ≤
            (some CallArg.ctx :: (List.map some cs1 ++
              List.replicate (args.length - required.length) (none : Option (CallArg F)))).length := by
          simp [hl1]; omega
        simp only [hfit, if_true]
        cases hcl2 : convertList host (List.replicate (args.length - required.length) vty)
            (args.drop required.length) with
        | none =>
          obtain ⟨s, hs2⟩ := hspec2.1 hcl2
          simp only [List.cons_append] at hs2
          rw [hs2]
        | some cs2 =>
          have hs2 := hspec2.2 cs2 hcl2
          simp only [List.cons_append, List.length_drop, List.drop_replicate, Nat.sub_self,
            List.replicate_zero, List.append_nil] at hs2
          rw [hs2]
          simp [reflectCall, filled, ← List.map_append, filled_map_some]

theorem convertList_getElem? {F T : Type} (host : Host F T) :
    ∀ (tys : List (ParamType T)) (args : List Value) (cs : List (CallArg F)),
      convertList host tys args = some cs →
      ∀ (j : Nat) ty a, tys[j]? = some ty → args[j]? = some a →
        cs[j]? = convertArg host ty a := by
  intro tys
  induction tys with
  | nil => intro args cs _ j ty a h; simp at h
  | cons t tys ih =>
    intro args cs h j ty a hty ha
    cases args with
    | nil => simp at ha
    | cons x xs =>
      simp only [convertList] at h
      cases hc : convertArg host t x with
      | none => simp [hc] at h
      | some c =>
        cases hr : convertList host tys xs with
        | none => simp [hc, hr] at h
        | some cs1 =>
          simp [hc, hr] at h
          subst h
          cases j with
          | zero =>
            simp at hty ha
            subst hty; subst ha
            simp [hc]
          | succ j =>
            simp at hty ha
            simpa using ih xs cs1 hr j ty a hty ha

theorem convertList_none {F T : Type} (host : Host F T) :
    ∀ (tys : List (ParamType T)) (args : List Value),
      convertList host tys args = none →
      ∃ (j : Nat) (ty : ParamType T) (a : Value), tys[j]? = some ty ∧ args[j]? = some a ∧
        convertArg host ty a = (none : Option (CallArg F)) := by
  intro tys
  induction tys with
  | nil => intro args h; simp [convertList] at h
  | cons t tys ih =>
    intro args h
    cases args with
    | nil => simp [convertList] at h
    | cons x xs =>
      simp only [convertList] at h
      cases hc : convertArg host t x with
      | none => exact ⟨0, t, x, by simp, by simp, hc⟩
      | some c =>
        cases hr : convertList host tys xs with
        | some cs1 => simp [hc, hr] at h
        | none =>
          obtain ⟨j, ty, a, h1, h2, h3⟩ := ih xs hr
          exact ⟨j + 1, ty, a, by simpa using h1, by simpa using h2, h3⟩

theorem convertList_fails {F T : Type} (host : Host F T) :
    ∀ (tys : List (ParamType T)) (args : List Value) (j : Nat) (ty : ParamType T) (a : Value),
      tys[j]? = some ty → args[j]? = some a →
      convertArg host ty a = (none : Option (CallArg F)) → convertList host tys args = none := by
  intro tys args j ty a hty ha hc
  cases h : convertList host tys args with
  | none => rfl
  | some cs =>
    have h1 := convertList_getElem? host tys args cs h j ty a hty ha
    have h2 : j < tys.length := (List.getElem?_eq_some.1 hty).1
    have h3 : j < args.length := (List.getElem?_eq_some.1 ha).1
    exfalso
    rw [hc] at h1
    revert h h1 h2 h3
    clear hty ha hc
    induction tys generalizing args cs j with
    | nil => intro _ _ h2; simp at h2
    | cons t tys ih =>
      intro h h1 h2 h3
      cases args with
      | nil => simp at h3
      | cons x xs =>
        simp only [convertList] at h
        cases hc : convertArg host t x with
        | none => simp [hc] at h
        | some c =>
          cases hr : convertList host tys xs with
          | none => simp [hc, hr] at h
          | some cs1 =>
            simp [hc, hr] at h
            subst h
            cases j with
            | zero => simp at h1
            | succ j =>
              exact ih xs j cs1 hr (by simpa using h1) (by simpa using h2) (by simpa using h3)

theorem argTypes_length {T : Type} (sig : Signature T) (n : Nat) (h : sig.countOk n) :
    (sig.argTypes n).length = n := by
  obtain ⟨required, variadic⟩ := sig
  cases variadic with
  | none =>
    simp [Signature.countOk, Signature.isVariadic, Signature.requiredArgs] at h
    simp [Signature.argTypes, h]
  | some ty =>
    simp [Signature.countOk, Signature.isVariadic, Signature.requiredArgs] at h
    simp [Signature.argTypes, Signature.requiredArgs]
    omega

theorem argTypes_getElem? {T : Type} (sig : Signature T) (n j : Nat) (h : sig.countOk n)
    (hj : j < n) : (sig.argTypes n)[j]? = sig.paramAt j := by
  obtain ⟨required, variadic⟩ := sig
  cases variadic with
  | none =>
    simp [Signature.countOk, Signature.isVariadic, Signature.requiredArgs] at h
    subst h
    simp [Signature.argTypes, Signature.paramAt, Signature.requiredArgs, hj]
  | some ty =>
    simp [Signature.countOk, Signature.isVariadic, Signature.requiredArgs] at h
    by_cases hlt : j < required.length
    · simp [Signature.argTypes, Signature.paramAt, Signature.requiredArgs, hlt,
        List.getElem?_append_left]
    · have hge : required.length ≤ j := Nat.le_of_not_lt hlt
      simp only [Signature.argTypes, Signature.paramAt, Signature.requiredArgs, hlt, if_false]
      rw [List.getElem?_append_right hge, List.getElem?_replicate]
      have : j - required.length < n - required.length := by omega
      simp [this]

/-! ## The adapter: argument count, conversion, faults -/

/-- C1: for a wrapped function with `m` required parameters, a non-variadic one
called with a count other than `m`, or a variadic one called with fewer than `m`
arguments, returns the args-error failure and leaves the context as it was,
whatever the inner function is; with an accepted count and arguments that all
convert, the wrapped call is the inner function applied once to the context and
the converted arguments in their original order, and its result is returned
unchanged. -/
theorem wrapFn_argument_count {F T σ : Type} (host : Host F T) (sig : Signature T)
    (inner : Inner F σ) (ec : evalCtx σ) (args : List Value) :
    (sig.isVariadic = false → args.length ≠ sig.requiredArgs →
      wrapFn host sig inner ec args = .ok (argsError, ec)) ∧
    (sig.isVariadic = true → args.length < sig.requiredArgs →
      wrapFn host sig inner ec args = .ok (argsError, ec)) ∧
    (((sig.isVariadic = false ∧ args.length = sig.requiredArgs) ∨
        (sig.isVariadic = true ∧ sig.requiredArgs ≤ args.length)) →
      (∀ (i : Nat) a ty, args[i]? = some a → sig.paramAt i = some ty →
        (convertArg host ty a).isSome = true) →
      ∃ callArgs : List (CallArg F),
        callArgs.length = args.length ∧
        (∀ (i : Nat) a, args[i]? = some a →
          ∃ ty, sig.paramAt i = some ty ∧ convertArg host ty a = callArgs[i]?) ∧
        wrapFn host sig inner ec args = .ok (inner ec callArgs)) := by
  refine ⟨?_, ?_, ?_⟩
  · intro hv hne
    have hc : ¬ sig.countOk args.length := by simp [Signature.countOk, hv, hne]
    simp [wrapFn_eq, hc]
  · intro hv hlt
    have hc : ¬ sig.countOk args.length := by simp [Signature.countOk, hv]; omega
    simp [wrapFn_eq, hc]
  · intro hcount hall
    have hc : sig.countOk args.length := by
      rcases hcount with ⟨hv, h⟩ | ⟨hv, h⟩ <;> simp [Signature.countOk, hv, h]
    have hlen := argTypes_length sig args.length hc
    cases hcl : convertList host (sig.argTypes args.length) args with
    | none =>
      obtain ⟨j, ty, a, h1, h2, h3⟩ := convertList_none host _ _ hcl
      have hj : j < args.length := (List.getElem?_eq_some.1 h2).1
      rw [argTypes_getElem? sig _ j hc hj] at h1
      have := hall j a ty h2 h1
      simp [h3] at this
    | some cs =>
      refine ⟨cs, convertList_length host _ _ cs hlen hcl, ?_, ?_⟩
      · intro i a ha
        have hi : i < args.length := (List.getElem?_eq_some.1 ha).1
        have hty : ∃ ty, (sig.argTypes args.length)[i]? = some ty :=
          ⟨_, List.getElem?_eq_getElem (by omega)⟩
        obtain ⟨ty, hty⟩ := hty
        refine ⟨ty, ?_, ?_⟩
        · rw [← argTypes_getElem? sig _ i hc hi]; exact hty
        · exact (convertList_getElem? host _ _ cs hcl i ty a hty ha).symm
      · simp [wrapFn_eq, hc, hcl]

theorem wrapFn_argument_count_witness :
    wrapFn demoHost (failureSig demoHost) (failureInner demoHost) demoCtx [text "a", text "b"] =
      .ok (argsError, demoCtx) ∧
    wrapFn demoHost minusSig (minusInner demoHost) demoCtx [] = .ok (argsError, demoCtx) ∧
    ∃ callArgs : List (CallArg Int),
      callArgs.length = [text "1", text "1"].length ∧
      (∀ (i : Nat) a, [text "1", text "1"][i]? = some a →
        ∃ ty, (minusSig (T := Nat)).paramAt i = some ty ∧
          convertArg demoHost ty a = callArgs[i]?) ∧
      wrapFn demoHost minusSig (minusInner demoHost) demoCtx [text "1", text "1"] =
        .ok (minusInner demoHost demoCtx callArgs) :=
  ⟨(wrapFn_argument_count demoHost (failureSig demoHost) (failureInner demoHost) demoCtx
      [text "a", text "b"]).1 rfl (by decide),
   (wrapFn_argument_count demoHost minusSig (minusInner demoHost) demoCtx []).2.1 rfl
      (by decide),
   (wrapFn_argument_count demoHost minusSig (minusInner demoHost) demoCtx
      [text "1", text "1"]).2.2 (Or.inr ⟨rfl, by decide⟩) (by
        intro i a ty ha hty
        match i with
        | 0 =>
          simp at ha; subst ha
          simp [Signature.paramAt, Signature.requiredArgs, minusSig] at hty; subst hty
          decide
        | 1 =>
          simp at ha; subst ha
          simp [Signature.paramAt, Signature.requiredArgs, minusSig] at hty; subst hty
          decide
        | n + 2 => simp at ha)⟩

/-- C2: when an argument bound to a floating-point parameter is not a `String`,
or is a `String` that does not parse as a float, the wrapped call returns the
args-error failure with the context as it was: the inner function has had no
effect, and the output channel holds what it held before, also when earlier
arguments converted. -/
theorem wrapFn_float_coercion {F T σ : Type} (host : Host F T) (sig : Signature T)
    (inner : Inner F σ) (ec : evalCtx σ) (args : List Value) (i : Nat) (a : Value)
    (ha : args[i]? = some a) (hty : sig.paramAt i = some .Float64)
    (hbad : (∀ s, a ≠ .String s) ∨ (∃ s, a = .String s ∧ host.ParseFloat s = none)) :
    wrapFn host sig inner ec args = .ok (argsError, ec) ∧
    ∀ r, wrapFn host sig inner ec args = .ok r →
      r.1 = argsError ∧ r.2.ports1.ch = ec.ports1.ch := by
  have hconv : convertArg host .Float64 a = (none : Option (CallArg F)) := by
    rcases hbad with h | ⟨s, rfl, hs⟩
    · cases a <;> simp_all [convertArg, toFloat]
    · simp [convertArg, toFloat, hs]
  have hmain : wrapFn host sig inner ec args = .ok (argsError, ec) := by
    rw [wrapFn_eq]
    by_cases hc : sig.countOk args.length
    · have hi : i < args.length := (List.getElem?_eq_some.1 ha).1
      have h1 : (sig.argTypes args.length)[i]? = some .Float64 := by
        rw [argTypes_getElem? sig _ i hc hi]; exact hty
      simp [hc, convertList_fails host _ _ i _ a h1 ha hconv]
    · simp [hc]
  refine ⟨hmain, ?_⟩
  intro r hr
  rw [hmain] at hr
  cases hr
  exact ⟨rfl, rfl⟩

theorem wrapFn_float_coercion_witness :
    wrapFn demoHost plusSig (plusInner demoHost) demoCtx [text "1", text "x"] =
      .ok (argsError, demoCtx) ∧
    ∀ r, wrapFn demoHost plusSig (plusInner demoHost) demoCtx [text "1", text "x"] = .ok r →
      r.1 = argsError ∧ r.2.ports1.ch = demoCtx.ports1.ch :=
  wrapFn_float_coercion demoHost plusSig (plusInner demoHost) demoCtx [text "1", text "x"] 1
    (text "x") rfl rfl (Or.inr ⟨ascii "x", rfl, by decide⟩)

/-- C10: the wrapped call never ends in a fault of its own slicing or indexing,
for any signature and any argument list: it returns the args-error failure with
the context as it was, or it calls the inner function with all its call slots
filled, one for the context and one for each argument. -/
theorem wrapFn_no_fault {F T σ : Type} (host : Host F T) (sig : Signature T)
    (inner : Inner F σ) (ec : evalCtx σ) (args : List Value) :
    (wrapFn host sig inner ec args).isOk = true ∧
    (wrapFn host sig inner ec args = .ok (argsError, ec) ∨
      ∃ callArgs : List (CallArg F), callArgs.length = args.length ∧
        wrapFn host sig inner ec args = .ok (inner ec callArgs)) := by
  rw [wrapFn_eq]
  by_cases hc : sig.countOk args.length
  · cases hcl : convertList host (sig.argTypes args.length) args with
    | none => simp [hc, Except.isOk, Except.toBool]
    | some cs =>
      refine ⟨by simp [hc, Except.isOk, Except.toBool], Or.inr ?_⟩
      exact ⟨cs, convertList_length host _ _ cs (argTypes_length sig _ hc) hcl, by simp [hc]⟩
  · simp [hc, Except.isOk, Except.toBool]

/-! ## Iteration: `each` -/

theorem calls_append (l1 l2 : List Event) : calls (l1 ++ l2) = calls l1 ++ calls l2 := by
  induction l1 with
  | nil => rfl
  | cons e l1 ih => cases e <;> simp [calls, ih]

theorem forks_append (l1 l2 : List Event) : forks (l1 ++ l2) = forks l1 + forks l2 := by
  induction l1 with
  | nil => simp [forks]
  | cons e l1 ih =>
    cases e with
    | fork _ => simp [forks, ih]; omega
    | call _ => simp [forks, ih]
    | closePorts => simp [forks, ih]

theorem closings_append (l1 l2 : List Event) :
    closings (l1 ++ l2) = closings l1 + closings l2 := by
  induction l1 with
  | nil => simp [closings]
  | cons e l1 ih =>
    cases e with
    | fork _ => simp [closings, ih]
    | call _ => simp [closings, ih]
    | closePorts => simp [closings, ih]; omega

theorem calls_iterations (vs : List Value) :
    calls (vs.flatMap iteration) = vs.map (fun v => [v]) := by
  induction vs with
  | nil => rfl
  | cons v vs ih =>
    rw [List.flatMap_cons]
    simp [iteration, calls, ih]

theorem forks_iterations (vs : List Value) : forks (vs.flatMap iteration) = vs.length := by
  induction vs with
  | nil => rfl
  | cons v vs ih =>
    rw [List.flatMap_cons]
    simp [iteration, forks, ih]

theorem closings_iterations (vs : List Value) :
    closings (vs.flatMap iteration) = vs.length := by
  induction vs with
  | nil => rfl
  | cons v vs ih =>
    rw [List.flatMap_cons]
    simp [iteration, closings, ih]

theorem eachLoop_continue {σ : Type} (f : Closure σ) :
    ∀ (xs rest : List Value) (env : σ) (trace : List Event),
      (∀ e ∈ (runClosure f xs env).1, e = OK ∨ e = newFlow .Continue) →
      eachLoop f (xs ++ rest) env trace =
        eachLoop f rest (runClosure f xs env).2 (trace ++ xs.flatMap iteration) := by
  intro xs
  induction xs with
  | nil => intro rest env trace _; simp [runClosure]
  | cons x xs ih =>
    intro rest env trace h
    have h1 := ih rest (f.Call env [x]).2 (trace ++ iteration x)
      (fun e he => h e (by simp [runClosure, he]))
    have hx := h (f.Call env [x]).1 (by simp [runClosure])
    rw [List.flatMap_cons, ← List.append_assoc]
    simp only [runClosure]
    rw [← h1]
    rcases hx with hx | hx
    · simp [eachLoop, hx, OK, Error.Sort, iteration]
    · simp [eachLoop, hx, newFlow, Error.Sort, FlowKind.sort, iteration]

/-- C3: with `xs ++ [b] ++ ys` queued on the input channel and a closure that,
called on these values in turn, returns `OK` or the Continue flow on every element
of `xs` and the Break flow on `b`, `each` returns `OK`; what it adds to the trace is one fork, one closure call
and one port closing for each element of `xs` and then for `b`, in that order, so
the closure is called on exactly `xs` followed by `b`; the values `ys` are left
on the input channel. -/
theorem each_break {σ : Type} (f : Closure σ) (ec : evalCtx σ) (xs ys : List Value) (b : Value)
    (hin : ec.ports0.ch = xs ++ [b] ++ ys)
    (hxs : ∀ e ∈ (runClosure f xs ec.env).1, e = OK ∨ e = newFlow .Continue)
    (hb : (f.Call (runClosure f xs ec.env).2 [b]).1 = newFlow .Break) :
    (each ec f).1 = OK ∧
    (each ec f).2.trace = ec.trace ++ (xs ++ [b]).flatMap iteration ∧
    calls (each ec f).2.trace = calls ec.trace ++ (xs.map (fun v => [v]) ++ [[b]]) ∧
    (each ec f).2.ports0.ch = ys := by
  have h1 := eachLoop_continue f xs (b :: ys) ec.env ec.trace hxs
  have h2 : eachLoop f (b :: ys) (runClosure f xs ec.env).2 (ec.trace ++ xs.flatMap iteration) =
      (OK, ys, (f.Call (runClosure f xs ec.env).2 [b]).2,
        ec.trace ++ xs.flatMap iteration ++ iteration b) := by
    simp [eachLoop, hb, newFlow, Error.Sort, FlowKind.sort, iteration]
  have h3 : eachLoop f ec.ports0.ch ec.env ec.trace =
      (OK, ys, (f.Call (runClosure f xs ec.env).2 [b]).2,
        ec.trace ++ xs.flatMap iteration ++ iteration b) := by
    rw [hin, List.append_assoc, List.singleton_append, h1, h2]
  have h4 : (each ec f).2.trace = ec.trace ++ (xs ++ [b]).flatMap iteration := by
    simp [each, h3, List.flatMap_append]
  refine ⟨?_, h4, ?_, ?_⟩
  · simp [each, h3]
  · rw [h4, calls_append, calls_iterations]; simp
  · simp [each, h3]

theorem each_break_witness :
    (each { demoCtx with ports0 := { ch := [text "a", text "b", text "c"] } } demoClosure).1 = OK ∧
    (each { demoCtx with ports0 := { ch := [text "a", text "b", text "c"] } } demoClosure).2.trace =
      [] ++ ([text "a"] ++ [text "b"]).flatMap iteration ∧
    calls (each { demoCtx with ports0 := { ch := [text "a", text "b", text "c"] } }
        demoClosure).2.trace =
      calls [] ++ ([text "a"].map (fun v => [v]) ++ [[text "b"]]) ∧
    (each { demoCtx with ports0 := { ch := [text "a", text "b", text "c"] } } demoClosure).2.ports0.ch =
      [text "c"] :=
  each_break demoClosure { demoCtx with ports0 := { ch := [text "a", text "b", text "c"] } }
    [text "a"] [text "c"] (text "b") rfl (by decide) (by decide)

/-- C4: with `xs ++ [b] ++ ys` queued on the input channel and a closure that,
called on these values in turn, returns `OK` or the Continue flow on every element
of `xs` and, on `b`, a signal `r` that is the Return flow or a failure, `each`
returns `r` itself; the closure
is called on exactly `xs` followed by `b`, and the values `ys` are left on the
input channel. -/
theorem each_tunnel {σ : Type} (f : Closure σ) (ec : evalCtx σ) (xs ys : List Value) (b : Value)
    (r : Error)
    (hin : ec.ports0.ch = xs ++ [b] ++ ys)
    (hxs : ∀ e ∈ (runClosure f xs ec.env).1, e = OK ∨ e = newFlow .Continue)
    (hr : r = newFlow .Return ∨ ∃ msg, r = NewFailure msg)
    (hb : (f.Call (runClosure f xs ec.env).2 [b]).1 = r) :
    (each ec f).1 = r ∧
    (each ec f).2.trace = ec.trace ++ (xs ++ [b]).flatMap iteration ∧
    calls (each ec f).2.trace = calls ec.trace ++ (xs.map (fun v => [v]) ++ [[b]]) ∧
    (each ec f).2.ports0.ch = ys := by
  have h1 := eachLoop_continue f xs (b :: ys) ec.env ec.trace hxs
  have h2 : eachLoop f (b :: ys) (runClosure f xs ec.env).2 (ec.trace ++ xs.flatMap iteration) =
      (r, ys, (f.Call (runClosure f xs ec.env).2 [b]).2,
        ec.trace ++ xs.flatMap iteration ++ iteration b) := by
    rcases hr with hr | ⟨msg, hr⟩ <;>
      simp [eachLoop, hb, hr, newFlow, NewFailure, Error.Sort, FlowKind.sort, iteration]
  have h3 : eachLoop f ec.ports0.ch ec.env ec.trace =
      (r, ys, (f.Call (runClosure f xs ec.env).2 [b]).2,
        ec.trace ++ xs.flatMap iteration ++ iteration b) := by
    rw [hin, List.append_assoc, List.singleton_append, h1, h2]
  have h4 : (each ec f).2.trace = ec.trace ++ (xs ++ [b]).flatMap iteration := by
    simp [each, h3, List.flatMap_append]
  refine ⟨?_, h4, ?_, ?_⟩
  · simp [each, h3]
  · rw [h4, calls_append, calls_iterations]; simp
  · simp [each, h3]

theorem each_tunnel_witness :
    (each { demoCtx with ports0 := { ch := [text "r", text "b", text "c"] } } demoClosure).1 =
      newFlow .Return ∧
    (each { demoCtx with ports0 := { ch := [text "r", text "b", text "c"] } } demoClosure).2.trace =
      [] ++ ([] ++ [text "r"]).flatMap iteration ∧
    calls (each { demoCtx with ports0 := { ch := [text "r", text "b", text "c"] } }
        demoClosure).2.trace =
      calls [] ++ (([] : List Value).map (fun v => [v]) ++ [[text "r"]]) ∧
    (each { demoCtx with ports0 := { ch := [text "r", text "b", text "c"] } } demoClosure).2.ports0.ch =
      [text "b", text "c"] :=
  each_tunnel demoClosure { demoCtx with ports0 := { ch := [text "r", text "b", text "c"] } }
    [] [text "b", text "c"] (text "r") (newFlow .Return) rfl (by decide) (Or.inl rfl)
    (by decide)

/-- C5: with the values `vs` queued on the input channel and a closure that,
called on them in turn, returns `OK` or the Continue flow on every one, `each`
returns `OK`, never the Continue flow; what it adds to the trace is, for each value `v` in input
order, one fork, one closure call with the argument list `[v]` and one port
closing, so forks, calls and closings each number `vs.length`; the state the
closure works on is afterwards what one call with `[v]` for each value of `vs`, in
input order, makes of it; the input channel is drained. -/
theorem each_all {σ : Type} (f : Closure σ) (ec : evalCtx σ) (vs : List Value)
    (hin : ec.ports0.ch = vs)
    (hvs : ∀ e ∈ (runClosure f vs ec.env).1, e = OK ∨ e = newFlow .Continue) :
    (each ec f).1 = OK ∧ (each ec f).1 ≠ newFlow .Continue ∧
    (each ec f).2.trace = ec.trace ++ vs.flatMap iteration ∧
    calls (each ec f).2.trace = calls ec.trace ++ vs.map (fun v => [v]) ∧
    forks (each ec f).2.trace = forks ec.trace + vs.length ∧
    (calls (each ec f).2.trace).length = (calls ec.trace).length + vs.length ∧
    closings (each ec f).2.trace = closings ec.trace + vs.length ∧
    (each ec f).2.ports0.ch = [] ∧
    (each ec f).2.env = (runClosure f vs ec.env).2 := by
  have h1 := eachLoop_continue f vs [] ec.env ec.trace hvs
  have h3 : eachLoop f ec.ports0.ch ec.env ec.trace =
      (OK, [], (runClosure f vs ec.env).2, ec.trace ++ vs.flatMap iteration) := by
    rw [hin]
    simpa [eachLoop] using h1
  have h4 : (each ec f).2.trace = ec.trace ++ vs.flatMap iteration := by
    simp [each, h3]
  refine ⟨?_, ?_, h4, ?_, ?_, ?_, ?_, ?_, ?_⟩
  · simp [each, h3]
  · simp [each, h3, OK, newFlow]
  · rw [h4, calls_append, calls_iterations]
  · rw [h4, forks_append, forks_iterations]
  · rw [h4, calls_append, calls_iterations]; simp
  · rw [h4, closings_append, closings_iterations]
  · simp [each, h3]
  · simp [each, h3]

theorem each_all_witness :
    (each { recorderCtx with ports0 := { ch := [text "a", text "c"] } } recorder).1 = OK ∧
    (each { recorderCtx with ports0 := { ch := [text "a", text "c"] } } recorder).1 ≠
      newFlow .Continue ∧
    (each { recorderCtx with ports0 := { ch := [text "a", text "c"] } } recorder).2.trace =
      [] ++ [text "a", text "c"].flatMap iteration ∧
    calls (each { recorderCtx with ports0 := { ch := [text "a", text "c"] } } recorder).2.trace =
      calls [] ++ [text "a", text "c"].map (fun v => [v]) ∧
    forks (each { recorderCtx with ports0 := { ch := [text "a", text "c"] } } recorder).2.trace =
      forks [] + 2 ∧
    (calls (each { recorderCtx with ports0 := { ch := [text "a", text "c"] } }
        recorder).2.trace).length = (calls []).length + 2 ∧
    closings (each { recorderCtx with ports0 := { ch := [text "a", text "c"] } } recorder).2.trace =
      closings [] + 2 ∧
    (each { recorderCtx with ports0 := { ch := [text "a", text "c"] } } recorder).2.ports0.ch = [] ∧
    (each { recorderCtx with ports0 := { ch := [text "a", text "c"] } } recorder).2.env =
      [[text "a"], [text "c"]] :=
  each_all recorder { recorderCtx with ports0 := { ch := [text "a", text "c"] } }
    [text "a", text "c"] rfl (by decide)

/-! ## `unpack` -/

theorem unpackLoop_spec :
    ∀ (vs out : List Value),
      (unpackLoop vs out).1 = (if vs.all isList then OK else inputError) ∧
      (unpackLoop vs out).2.2 = out ++ (vs.takeWhile isList).flatMap elemsOf ∧
      (unpackLoop vs out).2.1 = (vs.dropWhile isList).drop 1 := by
  intro vs
  induction vs with
  | nil => intro out; simp [unpackLoop]
  | cons v vs ih =>
    intro out
    cases v with
    | List l =>
      have := ih (out ++ l)
      simp [unpackLoop, isList, elemsOf, List.takeWhile_cons, List.dropWhile_cons,
        List.flatMap_cons] at this ⊢
      exact this
    | String _ => simp [unpackLoop, isList, List.takeWhile_cons, List.dropWhile_cons]
    | Bool _ => simp [unpackLoop, isList, List.takeWhile_cons, List.dropWhile_cons]
    | Rat _ _ => simp [unpackLoop, isList, List.takeWhile_cons, List.dropWhile_cons]
    | Map _ => simp [unpackLoop, isList, List.takeWhile_cons, List.dropWhile_cons]
    | Closure _ => simp [unpackLoop, isList, List.takeWhile_cons, List.dropWhile_cons]
    | Error _ => simp [unpackLoop, isList, List.takeWhile_cons, List.dropWhile_cons]

/-- C6: with the values `vs` queued on the input channel of `unpack` and the
channel then closed: when every value is a list, `unpack` sends the elements of
the lists, concatenated in order, and nothing more, drains the input and returns
`OK`; otherwise it sends the elements of the lists of the longest prefix of `vs`
made of lists only, nothing of what follows the first value that is not a list,
and returns the input-error failure. -/
theorem unpack_spec {σ : Type} (ec : evalCtx σ) (vs : List Value) (hin : ec.ports0.ch = vs) :
    ((∀ v ∈ vs, isList v = true) →
      (unpack ec).1 = OK ∧
      (unpack ec).2.ports1.ch = ec.ports1.ch ++ vs.flatMap elemsOf ∧
      (unpack ec).2.ports0.ch = []) ∧
    (¬ (∀ v ∈ vs, isList v = true) →
      (unpack ec).1 = inputError ∧
      (unpack ec).2.ports1.ch = ec.ports1.ch ++ (vs.takeWhile isList).flatMap elemsOf) := by
  obtain ⟨h1, h2, h3⟩ := unpackLoop_spec vs ec.ports1.ch
  constructor
  · intro hall
    have ha : vs.all isList = true := by simpa using hall
    have ht : vs.takeWhile isList = vs := by simpa using hall
    have hd : vs.dropWhile isList = [] := by simpa using hall
    refine ⟨?_, ?_, ?_⟩
    · simp [unpack, hin, h1, ha]
    · simp [unpack, hin, h2, ht]
    · simp [unpack, hin, h3, hd]
  · intro hnot
    have ha : ¬ (vs.all isList = true) := by simpa using hnot
    refine ⟨?_, ?_⟩
    · simp only [unpack, hin, h1]
      simp [ha]
    · simp [unpack, hin, h2]

theorem unpack_spec_witness :
    (unpack { demoCtx with ports0 := { ch := [.List [text "a", text "b"], .List [], .List [text "c"]] } }).1 = OK ∧
    (unpack { demoCtx with ports0 := { ch := [.List [text "a", text "b"], .List [], .List [text "c"]] } }).2.ports1.ch =
      [] ++ [.List [text "a", text "b"], .List [], .List [text "c"]].flatMap elemsOf ∧
    (unpack { demoCtx with ports0 := { ch := [.List [text "a", text "b"], .List [], .List [text "c"]] } }).2.ports0.ch = [] ∧
    (unpack { demoCtx with ports0 := { ch := [.List [text "a"], text "q", .List [text "c"]] } }).1 =
      inputError ∧
    (unpack { demoCtx with ports0 := { ch := [.List [text "a"], text "q", .List [text "c"]] } }).2.ports1.ch =
      [] ++ ([.List [text "a"], text "q", .List [text "c"]].takeWhile isList).flatMap elemsOf :=
  ⟨((unpack_spec { demoCtx with ports0 := { ch := [.List [text "a", text "b"], .List [], .List [text "c"]] } }
      [.List [text "a", text "b"], .List [], .List [text "c"]] rfl).1 (by simp [isList])).1,
   ((unpack_spec { demoCtx with ports0 := { ch := [.List [text "a", text "b"], .List [], .List [text "c"]] } }
      [.List [text "a", text "b"], .List [], .List [text "c"]] rfl).1 (by simp [isList])).2.1,
   ((unpack_spec { demoCtx with ports0 := { ch := [.List [text "a", text "b"], .List [], .List [text "c"]] } }
      [.List [text "a", text "b"], .List [], .List [text "c"]] rfl).1 (by simp [isList])).2.2,
   (unpack_spec { demoCtx with ports0 := { ch := [.List [text "a"], text "q", .List [text "c"]] } }
      [.List [text "a"], text "q", .List [text "c"]] rfl).2 (by simp [isList, text])⟩

/-! ## `eq` -/

theorem eqLoop_iff {F T : Type} (host : Host F T) :
    ∀ (args : List Value),
      eqLoop host args = true ↔
        ∀ (i : Nat) x y, args[i]? = some x → args[i + 1]? = some y → host.Eq x y = true := by
  intro args
  induction args with
  | nil => simp [eqLoop]
  | cons a rest ih =>
    cases rest with
    | nil => simp [eqLoop]
    | cons b rest =>
      simp only [eqLoop]
      constructor
      · intro h i x y hx hy
        by_cases hab : host.Eq a b = true
        · simp [hab] at h
          cases i with
          | zero =>
            simp at hx hy
            subst hx; subst hy
            exact hab
          | succ i =>
            exact (ih.1 h) i x y (by simpa using hx) (by simpa using hy)
        · simp [hab] at h
      · intro h
        have hab : host.Eq a b = true := h 0 a b (by simp) (by simp)
        simp only [hab, Bool.not_true, Bool.false_eq_true, if_false]
        exact ih.2 (fun i x y hx hy => h (i + 1) x y (by simpa using hx) (by simpa using hy))

/-- C7: the builtin `eq` with no argument returns the args-error failure and
sends nothing; with at least one argument it returns `OK` and sends exactly one
boolean, true if and only if `Eq` holds of every pair of adjacent arguments. -/
theorem eq_spec {F T σ : Type} (host : Host F T) (ec : evalCtx σ) (args : List Value) :
    (args = [] → eq host ec args = (argsError, ec)) ∧
    (args ≠ [] → ∃ b : Bool,
      eq host ec args = (OK, ec.send (.Bool b)) ∧
      (eq host ec args).2.ports1.ch = ec.ports1.ch ++ [.Bool b] ∧
      (b = true ↔
        ∀ (i : Nat) x y, args[i]? = some x → args[i + 1]? = some y → host.Eq x y = true)) := by
  constructor
  · intro h; subst h; simp [eq]
  · intro h
    have hl : args.length ≠ 0 := by simpa using h
    refine ⟨eqLoop host args, ?_, ?_, eqLoop_iff host args⟩
    · cases hb : eqLoop host args <;> simp [eq, hl, hb]
    · cases hb : eqLoop host args <;> simp [eq, hl, hb, evalCtx.send]

theorem eq_spec_witness :
    eq demoHost demoCtx [] = (argsError, demoCtx) ∧
    ∃ b : Bool,
      eq demoHost demoCtx [text "a", text "a", text "a"] = (OK, demoCtx.send (.Bool b)) ∧
      (eq demoHost demoCtx [text "a", text "a", text "a"]).2.ports1.ch =
        demoCtx.ports1.ch ++ [.Bool b] ∧
      (b = true ↔
        ∀ (i : Nat) x y, [text "a", text "a", text "a"][i]? = some x →
          [text "a", text "a", text "a"][i + 1]? = some y → demoHost.Eq x y = true) :=
  ⟨(eq_spec demoHost demoCtx []).1 rfl,
   (eq_spec demoHost demoCtx [text "a", text "a", text "a"]).2 (by simp)⟩

/-! ## `failure` -/

/-- C8, as the code has it: `failure` returns `OK` and sends on the output channel
exactly one value, the failure whose message is the text of its argument; the
registered builtin, `failure` wrapped by `wrapFn`, does the same for an argument
convertible to `Value`. -/
theorem failure_sends_failure {F T σ : Type} (host : Host F T) (ec : evalCtx σ) (v : Value) :
    failure host ec v = (OK, ec.send (.Error (NewFailure (host.ToString v)))) ∧
    (failure host ec v).2.ports1.ch =
      ec.ports1.ch ++ [.Error (NewFailure (host.ToString v))] ∧
    (host.ConvertibleTo v host.valueType = true →
      wrapFn host (failureSig host) (failureInner host) ec [v] =
        .ok (OK, ec.send (.Error (NewFailure (host.ToString v))))) := by
  refine ⟨rfl, rfl, ?_⟩
  intro hconv
  rw [wrapFn_eq]
  simp [Signature.countOk, Signature.isVariadic, Signature.requiredArgs, failureSig,
    Signature.argTypes, convertList, convertArg, hconv, failureInner, failure]

theorem failure_sends_failure_witness :
    failure demoHost demoCtx (text "x") =
      (OK, demoCtx.send (.Error (NewFailure (demoHost.ToString (text "x"))))) ∧
    (failure demoHost demoCtx (text "x")).2.ports1.ch =
      demoCtx.ports1.ch ++ [.Error (NewFailure (demoHost.ToString (text "x")))] ∧
    wrapFn demoHost (failureSig demoHost) (failureInner demoHost) demoCtx [text "x"] =
      .ok (OK, demoCtx.send (.Error (NewFailure (demoHost.ToString (text "x"))))) :=
  ⟨(failure_sends_failure demoHost demoCtx (text "x")).1,
   (failure_sends_failure demoHost demoCtx (text "x")).2.1,
   (failure_sends_failure demoHost demoCtx (text "x")).2.2 rfl⟩

/-- C8 as stated fails: called with the text `x`, `failure` and the registered
builtin both return `OK` as their result, not the failure with message `x`. -/
theorem failure_signal_counterexample :
    (failure demoHost demoCtx (text "x")).1 = OK ∧
    (failure demoHost demoCtx (text "x")).1 ≠ NewFailure (demoHost.ToString (text "x")) ∧
    ∃ r, wrapFn demoHost (failureSig demoHost) (failureInner demoHost) demoCtx [text "x"] =
        .ok r ∧
      r.1 = OK ∧ r.1 ≠ NewFailure (demoHost.ToString (text "x")) :=
  ⟨rfl, by decide, _, rfl, rfl, by decide⟩

/-! ## `intoLines` and `fromLines` -/

theorem intoLinesLoop_strings {F T : Type} (host : Host F T)
    (hToString : ∀ s, host.ToString (.String s) = s) :
    ∀ (ss : List GoString) (out : GoString),
      intoLinesLoop host (ss.map Value.String) out = out ++ lines ss := by
  intro ss
  induction ss with
  | nil => intro out; simp [intoLinesLoop, lines]
  | cons s ss ih =>
    intro out
    simp [intoLinesLoop, hToString, ih, lines, List.flatMap_cons]

theorem ReadString_line (ferr : Option GoString) :
    ∀ (s rest : GoString), newline ∉ s →
      ReadString newline ferr (s ++ newline :: rest) = (s ++ [newline], rest, none) := by
  intro s
  induction s with
  | nil => intro rest _; simp [ReadString]
  | cons b s ih =>
    intro rest h
    have hb : b ≠ newline := fun e => h (by simp [e])
    have hs : newline ∉ s := fun e => h (List.mem_cons_of_mem _ e)
    simp [ReadString, hb, ih rest hs]

theorem fromLinesLoop_lines :
    ∀ (ss : List GoString) (fuel : Nat) (out : List Value),
      ss.length < fuel → (∀ s ∈ ss, newline ∉ s) →
      fromLinesLoop none fuel (lines ss) out = some (OK, [], out ++ ss.map Value.String) := by
  intro ss
  induction ss with
  | nil =>
    intro fuel out hf _
    cases fuel with
    | zero => simp at hf
    | succ k => simp [fromLinesLoop, lines, ReadString]
  | cons s ss ih =>
    intro fuel out hf hnl
    cases fuel with
    | zero => simp at hf
    | succ k =>
      have hs : newline ∉ s := hnl s (List.mem_cons_self _ _)
      have hread := ReadString_line none s (lines ss) hs
      have hl : lines (s :: ss) = s ++ newline :: lines ss := by
        simp [lines, List.flatMap_cons]
      rw [hl]
      simp only [fromLinesLoop, hread]
      rw [ih k _ (by simpa using hf) (fun t ht => hnl t (List.mem_cons_of_mem _ ht))]
      simp

theorem lines_length (ss : List GoString) : ss.length ≤ (lines ss).length := by
  induction ss with
  | nil => simp [lines]
  | cons s ss ih =>
    have hl : lines (s :: ss) = s ++ newline :: lines ss := by
      simp [lines, List.flatMap_cons]
    rw [hl]
    simp
    omega

theorem ReadString_rest_length (delim : Byte) (ferr : Option GoString) :
    ∀ (input : GoString), (ReadString delim ferr input).2.2 = none →
      (ReadString delim ferr input).2.1.length < input.length := by
  intro input
  induction input with
  | nil => simp [ReadString]
  | cons b bs ih =>
    intro h
    by_cases hb : b = delim
    · simp [ReadString, hb]
    · simp only [ReadString, hb, if_false] at h ⊢
      have := ih h
      simp
      omega

theorem fromLinesLoop_total (ferr : Option GoString) :
    ∀ (fuel : Nat) (input : GoString) (out : List Value),
      input.length < fuel → (fromLinesLoop ferr fuel input out).isSome = true := by
  intro fuel
  induction fuel with
  | zero => intro input out h; simp at h
  | succ k ih =>
    intro input out h
    have hlt := ReadString_rest_length newline ferr input
    unfold fromLinesLoop
    rcases hr : ReadString newline ferr input with ⟨line, rest, err⟩
    rw [hr] at hlt
    cases err with
    | none =>
      have := hlt rfl
      simp only
      exact ih rest _ (by simp at this; omega)
    | some e => cases e <;> simp

/-- The builtin `fromLines` returns: the fuel it is given is enough on every
input. -/
theorem fromLines_total {σ : Type} (ec : evalCtx σ) : (fromLines ec).isSome = true := by
  have h := fromLinesLoop_total ec.ports0.ferr (ec.ports0.f.length + 1) ec.ports0.f
    ec.ports1.ch (Nat.lt_succ_self _)
  unfold fromLines
  cases hr : fromLinesLoop ec.ports0.ferr (ec.ports0.f.length + 1) ec.ports0.f ec.ports1.ch with
  | none => simp [hr] at h
  | some r => simp

/-- C9: for `String` values `ss` without a newline queued on the input channel of
`intoLines`, when `ToString` of a `String` is its contents: `intoLines` returns
`OK`, and `fromLines`, reading exactly the bytes `intoLines` wrote up to the end
of file, returns `OK` and sends exactly the values `ss`, in order, empty strings
included, after what the output channel held. -/
theorem intoLines_fromLines_roundtrip {F T σ τ : Type} (host : Host F T) (ss : List GoString)
    (ec1 : evalCtx σ) (ec2 : evalCtx τ)
    (hToString : ∀ s, host.ToString (.String s) = s)
    (hnl : ∀ s ∈ ss, newline ∉ s)
    (hin : ec1.ports0.ch = ss.map Value.String)
    (hfile : (intoLines host ec1).2.ports1.f = ec1.ports1.f ++ ec2.ports0.f)
    (heof : ec2.ports0.ferr = none) :
    (intoLines host ec1).1 = OK ∧
    ∃ r, fromLines ec2 = some r ∧ r.1 = OK ∧
      r.2.ports1.ch = ec2.ports1.ch ++ ss.map Value.String ∧ r.2.ports0.f = [] := by
  have hw : ec2.ports0.f = lines ss := by
    have : ec1.ports1.f ++ lines ss = ec1.ports1.f ++ ec2.ports0.f := by
      rw [← hfile]
      simp [intoLines, hin, intoLinesLoop_strings host hToString]
    exact (List.append_cancel_left this).symm
  have hloop := fromLinesLoop_lines ss ((lines ss).length + 1) ec2.ports1.ch
    (Nat.lt_succ_of_le (lines_length ss)) hnl
  refine ⟨rfl, ?_⟩
  simp [fromLines, heof, hw, hloop]

theorem intoLines_fromLines_roundtrip_witness :
    (intoLines demoHost { demoCtx with ports0 := { ch := [text "ab", text "", text "c"] } }).1 = OK ∧
    ∃ r, fromLines { demoCtx with ports0 := { f := [97, 98, 10, 10, 99, 10] } } = some r ∧
      r.1 = OK ∧
      r.2.ports1.ch = [] ++ [[97, 98], [], [99]].map Value.String ∧ r.2.ports0.f = [] :=
  intoLines_fromLines_roundtrip demoHost [[97, 98], [], [99]]
    { demoCtx with ports0 := { ch := [text "ab", text "", text "c"] } }
    { demoCtx with ports0 := { f := [97, 98, 10, 10, 99, 10] } }
    (fun _ => rfl) (by decide) rfl (by decide) rfl

end Elvish
